import Mathlib

/-!
Shallow embedding of the backup-manager repository (backup_manager.py and
backup_service.py) and proofs of the spec's claims about it.

The schedule store file is modelled as its raw text content (`String`,
`none` when the file does not exist).  Python string primitives used by the
source (`str.split` with a one-character separator, `str.strip` with no
argument, `int(...)`, `file.readlines`) are embedded as executable
functions over the underlying character lists.
-/

/-- Characters removed by Python `str.strip()` (ASCII whitespace). -/
def pySpace (c : Char) : Bool :=
  c = ' ' || c = '\t' || c = '\n' || c = '\r' || c = '\x0b' || c = '\x0c'

/-- Python `str.strip()` on a character list. -/
def pyStripC (cs : List Char) : List Char :=
  ((cs.dropWhile pySpace).reverse.dropWhile pySpace).reverse

/-- Python `str.strip()`. -/
def pyStripStr (s : String) : String :=
  ⟨pyStripC s.data⟩

/-- Python `str.split(sep)` for a one-character separator, on character
lists: splits at every occurrence of `sep`, keeping empty pieces
(`"".split(";") == [""]`, `"a;;b".split(";") == ["a","","b"]`). -/
def splitOnCharC (sep : Char) : List Char → List (List Char)
  | [] => [[]]
  | c :: cs =>
    if c = sep then [] :: splitOnCharC sep cs
    else
      match splitOnCharC sep cs with
      | [] => [[c]]
      | g :: gs => (c :: g) :: gs

/-- Python `s.split(sep)` for a one-character separator. -/
def pySplit (s : String) (sep : Char) : List String :=
  (splitOnCharC sep s.data).map (fun l => ⟨l⟩)

/-- Digit run with single underscores between digits, as accepted by
Python `int`: accumulates the value; `acc = none` while no digit has been
seen yet.  Rejects a leading, trailing or doubled underscore. -/
def pyDigitsAux : Option Nat → List Char → Option Nat
  | acc, [] => acc
  | acc, c :: cs =>
    if c.isDigit then
      pyDigitsAux (some ((acc.getD 0) * 10 + (c.toNat - 48))) cs
    else if c = '_' then
      match acc, cs with
      | some a, d :: _ => if d.isDigit then pyDigitsAux (some a) cs else none
      | _, _ => none
    else none

/-- Python `int(s)`: optional surrounding whitespace, optional sign,
then a non-empty digit run (underscores allowed between digits);
`none` when Python would raise `ValueError`. -/
def pyInt (s : String) : Option Int :=
  match pyStripC s.data with
  | '+' :: rest => (pyDigitsAux none rest).map Int.ofNat
  | '-' :: rest => (pyDigitsAux none rest).map (fun n => -(n : Int))
  | rest => (pyDigitsAux none rest).map Int.ofNat

/-- Split file content into lines, each keeping its trailing newline
(the last line may lack one), exactly like Python `file.readlines()`. -/
def splitLinesC : List Char → List (List Char)
  | [] => []
  | c :: cs =>
    if c = '\n' then ['\n'] :: splitLinesC cs
    else
      match splitLinesC cs with
      | [] => [[c]]
      | l :: ls => (c :: l) :: ls

/-- Python `readlines()` on the store content. -/
def readLines (s : String) : List String :=
  (splitLinesC s.data).map (fun l => ⟨l⟩)

/-- The `strftime` zero-padding of an hour or minute to two characters. -/
def pad2 (n : Nat) : String :=
  if n < 10 then "0" ++ toString n else toString n

/-- The rendering `now.strftime("%H:%M")`: the current time rendered zero-padded. -/
def timeStr (h m : Nat) : String :=
  pad2 h ++ ":" ++ pad2 m

/-! ## Manager CLI (backup_manager.py) -/

/-- Events appended to the manager's log sink (the sink is opaque in the
spec, so messages are abstracted to their kind plus the data they carry). -/
inductive MEvent where
  | created (s : String)
  | deleted (idx : Int) (removed : String)
  | error
  deriving Repr, DecidableEq

/-- State visible to the manager CLI: the schedule store file content
(`none` = file absent) and the log sink. -/
structure ManagerState where
  store : Option String
  log : List MEvent
  deriving Repr, DecidableEq

/-- The validation performed by `create_schedule` before writing: exactly
three `;`-separated fields, none empty; the time field splits on `:` into
exactly two parts, both parse as Python ints, hour in [0,23] and minute in
[0,59].  `true` iff no exception is raised before the append. -/
def validateSchedule (s : String) : Bool :=
  match pySplit s ';' with
  | [p0, p1, p2] =>
    p0 ≠ "" && p1 ≠ "" && p2 ≠ "" &&
    (match pySplit p1 ':' with
     | [hs, ms] =>
       match pyInt hs, pyInt ms with
       | some hour, some minute =>
         decide (0 ≤ hour) && decide (hour ≤ 23) &&
         decide (0 ≤ minute) && decide (minute ≤ 59)
       | _, _ => false
     | _ => false)
  | _ => false

/-- Python `create_schedule(schedule_str)`: on success appends
`schedule_str + "\n"` to the store (creating the file when absent, as
append mode does); on any validation failure logs an error and leaves the
store untouched. -/
def create_schedule (s : String) (st : ManagerState) : ManagerState :=
  if validateSchedule s then
    { store := some (st.store.getD "" ++ (s ++ "\n")),
      log := st.log ++ [MEvent.created s] }
  else
    { st with log := st.log ++ [MEvent.error] }

/-- What `list_schedules` prints, one entry per store line, in order: the
line stripped of surrounding whitespace (it prints `f"{i}: {line.strip()}"`,
the index being the position in this list). -/
def listShown (content : String) : List String :=
  (readLines content).map pyStripStr

/-- Python `delete_schedule(index)`: converts the argument with Python `int`;
with the store read as raw lines, an in-range index pops that line and
rewrites the file with `writelines` (raw remaining lines concatenated);
a missing file, unparseable index or out-of-range index logs an error and
leaves the store unchanged. -/
def delete_schedule (idxStr : String) (st : ManagerState) : ManagerState :=
  match st.store with
  | none => { st with log := st.log ++ [MEvent.error] }
  | some content =>
    let ls := readLines content
    match pyInt idxStr with
    | none => { st with log := st.log ++ [MEvent.error] }
    | some i =>
      if 0 ≤ i ∧ i < (ls.length : Int) then
        { store := some (String.join (ls.eraseIdx i.toNat)),
          log := st.log ++ [MEvent.deleted i (pyStripStr (ls.getD i.toNat ""))] }
      else
        { st with log := st.log ++ [MEvent.error] }

/-- Result of `start_service`, abstracted over the text the process-table query
(`ps -A -f | grep backup_service.py | grep -v grep`) returns:
`launched = some true` records a `Popen` call with
`start_new_session=True`; `none` records that no process was launched. -/
structure StartResult where
  launched : Option Bool
  alreadyRunningError : Bool
  deriving Repr, DecidableEq

/-- Behaviour of `start_service()` given the stdout of the process-table query. -/
def start_service (psOutput : String) : StartResult :=
  if pyStripStr psOutput ≠ "" then
    { launched := none, alreadyRunningError := true }
  else
    { launched := some true, alreadyRunningError := false }

/-! ## Worker tick (backup_service.py main loop body) -/

/-- Events appended to the service's log sink during one tick. -/
inductive SEvent where
  | backupDone (path : String)
  | backupError (path : String)
  | parseError (line : String)
  deriving Repr, DecidableEq

/-- The conversion `sched_hour, sched_min = map(int, sched_time_str.split(":"))` and
`sched_total_minutes = sched_hour*60 + sched_min`, as one step: `none`
when the split is not two pieces or an `int` conversion raises. -/
def parseTimeMin (t : String) : Option Int :=
  match pySplit t ':' with
  | [hs, ms] =>
    match pyInt hs, pyInt ms with
    | some sh, some sm => some (sh * 60 + sm)
    | _, _ => none
  | _ => none

/-- The unpacking `path, sched_time_str, name = line.split(";")` followed by the time
conversion; `none` when any of it raises (caught by the per-line
`except`).  Returns (path, sched_time_str, sched_total_minutes, name). -/
def parseSched (line : String) : Option (String × String × Int × String) :=
  match pySplit line ';' with
  | [path, t, name] => (parseTimeMin t).map (fun sm => (path, t, sm, name))
  | _ => none

/-- What the loop body does with one raw line. -/
inductive LineAction where
  | skip
  | fire (path name : String)
  | keep (line : String)
  | parseErr (line : String)
  deriving Repr, DecidableEq

/-- One iteration of the `for line in schedules` loop: strip the line;
skip it when blank; on parse failure log a parse error and do not retain
it; on an exact string match with `current_time_str` run the backup and do
not retain it; otherwise retain the stripped line — the source appends the
line in the past-due (`sched_total_minutes < current_minutes`) branch as
well as in the future branch, so both retain it. -/
def classify (nowStr : String) (nowMin : Int) (raw : String) : LineAction :=
  let line := pyStripStr raw
  if line = "" then LineAction.skip
  else
    match parseSched line with
    | none => LineAction.parseErr line
    | some (path, t, sm, name) =>
      if t = nowStr then LineAction.fire path name
      else if sm < nowMin then LineAction.keep line
      else LineAction.keep line

/-- Result of folding the per-line loop over the raw lines. -/
structure TickOut where
  keep : List String
  arch : List (String × String)
  log : List SEvent
  deriving Repr, DecidableEq

/-- The `for line in schedules` loop: `keep` is `remaining_schedules`,
`arch` the `perform_backup` invocations in order, `log` the service log
appends.  `ok path name` is the opaque outcome of the archive operation
(`perform_backup` catches every exception, so it only chooses the log
message). -/
def tickLines (ok : String → String → Bool) (nowStr : String) (nowMin : Int) :
    List String → TickOut
  | [] => ⟨[], [], []⟩
  | raw :: rest =>
    let r := tickLines ok nowStr nowMin rest
    match classify nowStr nowMin raw with
    | LineAction.skip => r
    | LineAction.fire path name =>
      { keep := r.keep,
        arch := (path, name) :: r.arch,
        log := (if ok path name then SEvent.backupDone path
                else SEvent.backupError path) :: r.log }
    | LineAction.keep line => { r with keep := line :: r.keep }
    | LineAction.parseErr line => { r with log := SEvent.parseError line :: r.log }

/-- Result of one tick: the store content afterwards, the
`perform_backup` invocations, and the service log appends. -/
structure TickResult where
  store : Option String
  arch : List (String × String)
  log : List SEvent
  deriving Repr, DecidableEq

/-- The rewrite format: each retained record followed by exactly one
newline (`f.write(f"{s}\n")`). -/
def linesJoin (ls : List String) : String :=
  String.join (ls.map (· ++ "\n"))

/-- One body of the worker's `while True` loop at simulated wall-clock
time `h:m` (so `current_time_str = timeStr h m` and
`current_minutes = h*60 + m`), on store content `store` (`none` = file
absent, in which case the tick is a no-op).  The store is rewritten only
when the retained count differs from the raw line count. -/
def tick (ok : String → String → Bool) (h m : Nat) (store : Option String) :
    TickResult :=
  match store with
  | none => ⟨none, [], []⟩
  | some content =>
    let schedules := readLines content
    let r := tickLines ok (timeStr h m) ((h : Int) * 60 + m) schedules
    let content' :=
      if r.keep.length ≠ schedules.length then linesJoin r.keep else content
    ⟨some content', r.arch, r.log⟩

/-- A store content that is empty or newline-terminated: the invariant
every writer of the store maintains (both `create_schedule` and the worker
append `"\n"` after every line). -/
def nlTerminated (s : String) : Prop :=
  s.data = [] ∨ s.data.getLast? = some '\n'

/-- A character list that is empty or ends with a newline. -/
def nlTermC (a : List Char) : Prop :=
  a = [] ∨ a.getLast? = some '\n'

/-- Shape of a single line produced by `splitLinesC`: non-empty, with a
newline possible only as its final character. -/
def goodLine (l : List Char) : Prop :=
  l ≠ [] ∧ '\n' ∉ l.dropLast

/-- Shape of a `readlines` result: every line is a `goodLine` and every
line but the last ends with a newline. -/
def okLines (ls : List (List Char)) : Prop :=
  (∀ l ∈ ls, goodLine l) ∧ ∀ l ∈ ls.dropLast, l.getLast? = some '\n'

/-! ## Lemmas about the per-line loop -/

/-- A blank line never parses: the three-field unpack of `""` raises. -/
theorem parseSched_empty : parseSched "" = none := by decide

/-- The time field of every parsed record round-trips through
`parseTimeMin`. -/
theorem parseSched_time (line p t n : String) (sm : Int)
    (hp : parseSched line = some (p, t, sm, n)) : parseTimeMin t = some sm := by
  unfold parseSched at hp
  rcases hls : pySplit line ';' with _ | ⟨a, _ | ⟨b, _ | ⟨c, _ | _⟩⟩⟩ <;>
    rw [hls] at hp <;> simp at hp
  rcases htm : parseTimeMin b <;> rw [htm] at hp <;> simp at hp
  obtain ⟨hp1, hp2, hp3, hp4⟩ := hp
  rw [← hp2, ← hp3]
  exact htm

/-- The zero-padded rendering of a valid wall-clock time parses back to
its own minutes-of-day value. -/
theorem parseTimeMin_timeStr :
    ∀ h < 24, ∀ m < 60, parseTimeMin (timeStr h m) = some ((h : Int) * 60 + m) := by
  decide

/-- The loop over a concatenation of line lists processes each part
independently and concatenates the results. -/
theorem tickLines_append (ok : String → String → Bool) (ns : String) (nm : Int)
    (a b : List String) :
    tickLines ok ns nm (a ++ b) =
      ⟨(tickLines ok ns nm a).keep ++ (tickLines ok ns nm b).keep,
       (tickLines ok ns nm a).arch ++ (tickLines ok ns nm b).arch,
       (tickLines ok ns nm a).log ++ (tickLines ok ns nm b).log⟩ := by
  induction a with
  | nil => simp [tickLines]
  | cons raw rest ih =>
    cases hc : classify ns nm raw <;> simp [tickLines, hc, ih]

/-- The loop never retains more lines than it was given. -/
theorem tickLines_keep_length_le (ok : String → String → Bool) (ns : String)
    (nm : Int) (ls : List String) :
    (tickLines ok ns nm ls).keep.length ≤ ls.length := by
  induction ls with
  | nil => simp [tickLines]
  | cons raw rest ih =>
    cases hc : classify ns nm raw <;> simp [tickLines, hc] <;> omega

/-- Every line the loop retains parses: retained entries come only from
the `keep` action, whose line satisfies `parseSched`. -/
theorem tickLines_keep_parses (ok : String → String → Bool) (ns : String)
    (nm : Int) (ls : List String) :
    ∀ l ∈ (tickLines ok ns nm ls).keep, ∃ r, parseSched l = some r := by
  induction ls with
  | nil => simp [tickLines]
  | cons raw rest ih =>
    simp only [tickLines]
    rcases hc : classify ns nm raw with _ | ⟨p, n⟩ | l | l <;> simp only
    · exact ih
    · exact ih
    · intro x hx
      rcases List.mem_cons.mp hx with hx | hx
      · subst hx
        unfold classify at hc
        by_cases hb : pyStripStr raw = "" <;> simp [hb] at hc
        rcases hps : parseSched (pyStripStr raw) with _ | v <;> rw [hps] at hc <;>
          simp at hc
        obtain ⟨p, t, sm, nme⟩ := v
        by_cases ht : t = ns <;> simp [ht] at hc
        cases hc
        exact ⟨_, hps⟩
      · exact ih x hx
    · exact ih

/-! ## Claim C1 -/

/-- C1: the claim says a past-due record (scheduled strictly before the
current minute and not an exact HH:MM match) is retired by a single tick
without the archive operation being invoked, so that store
`["/data;09:00;morning"]` at simulated time 09:05 becomes empty.  The code
violates the retirement half: its past-due branch appends the record to
`remaining_schedules`, so the tick invokes no archive but leaves the store
byte-identical rather than empty. -/
theorem pastDue_record_is_kept_not_retired :
    tick (fun _ _ => true) 9 5 (some "/data;09:00;morning\n") =
      ⟨some "/data;09:00;morning\n", [], []⟩ := by decide

/-! ## Claim C2 -/

/-- C2: a record whose scheduled time string equals the zero-padded
rendering of the current time fires the archive operation exactly once
with its sourcePath and archiveName, and is removed from the rewritten
store, whatever the archive outcome `ok`: the rewrite keeps exactly the
other lines' retained records, with the fired record's archive call
inserted between the invocations produced by the lines before and after
it. -/
theorem exact_match_fires_once_and_retires (ok : String → String → Bool)
    (h m : Nat) (content : String) (pre post : List String)
    (raw p t n : String) (sm : Int)
    (hr : readLines content = pre ++ raw :: post)
    (hp : parseSched (pyStripStr raw) = some (p, t, sm, n))
    (ht : t = timeStr h m) :
    (tick ok h m (some content)).arch =
      (tickLines ok (timeStr h m) ((h : Int) * 60 + m) pre).arch ++
        (p, n) :: (tickLines ok (timeStr h m) ((h : Int) * 60 + m) post).arch ∧
    (tick ok h m (some content)).store =
      some (linesJoin
        ((tickLines ok (timeStr h m) ((h : Int) * 60 + m) pre).keep ++
         (tickLines ok (timeStr h m) ((h : Int) * 60 + m) post).keep)) := by
  have hb : pyStripStr raw ≠ "" := by
    intro hE
    rw [hE, parseSched_empty] at hp
    exact Option.noConfusion hp
  have hc : classify (timeStr h m) ((h : Int) * 60 + m) raw =
      LineAction.fire p n := by
    unfold classify
    simp [hb, hp, ht]
  have hlen1 := tickLines_keep_length_le ok (timeStr h m) ((h : Int) * 60 + m) pre
  have hlen2 := tickLines_keep_length_le ok (timeStr h m) ((h : Int) * 60 + m) post
  have hmid : tickLines ok (timeStr h m) ((h : Int) * 60 + m) (raw :: post) =
      ⟨(tickLines ok (timeStr h m) ((h : Int) * 60 + m) post).keep,
       (p, n) :: (tickLines ok (timeStr h m) ((h : Int) * 60 + m) post).arch,
       (if ok p n then SEvent.backupDone p else SEvent.backupError p) ::
         (tickLines ok (timeStr h m) ((h : Int) * 60 + m) post).log⟩ := by
    simp [tickLines, hc]
  simp only [tick, hr, tickLines_append, hmid]
  constructor
  · trivial
  · have hcond :
        ((tickLines ok (timeStr h m) ((h : Int) * 60 + m) pre).keep ++
          (tickLines ok (timeStr h m) ((h : Int) * 60 + m) post).keep).length ≠
        (pre ++ raw :: post).length := by
      simp only [List.length_append, List.length_cons]
      omega
    rw [if_pos hcond]

/-- C2 witness: the spec's concrete scenario, store
`["/data;14:30;daily"]` at simulated time 14:30. -/
theorem exact_match_fires_once_and_retires_witness :
    (tick (fun _ _ => true) 14 30 (some "/data;14:30;daily\n")).arch =
      [("/data", "daily")] ∧
    (tick (fun _ _ => true) 14 30 (some "/data;14:30;daily\n")).store = some "" := by
  have h := exact_match_fires_once_and_retires (fun _ _ => true) 14 30
    "/data;14:30;daily\n" [] [] "/data;14:30;daily\n" "/data" "14:30" "daily" 870
    (by decide) (by decide) (by decide)
  simpa [tickLines, linesJoin] using h

/-! ## Lemmas about line splitting and joining -/

/-- Splitting a non-empty text yields at least one line. -/
theorem splitLinesC_ne_nil (cs : List Char) (h : cs ≠ []) : splitLinesC cs ≠ [] := by
  cases cs with
  | nil => exact absurd rfl h
  | cons c rest =>
    unfold splitLinesC
    by_cases hc : c = '\n'
    · simp [hc]
    · simp only [hc, if_neg]
      rcases splitLinesC rest with _ | ⟨g, gs⟩ <;> simp

/-- Unfolding step: a leading newline is a line of its own. -/
theorem splitLinesC_cons_nl (cs : List Char) :
    splitLinesC ('\n' :: cs) = ['\n'] :: splitLinesC cs := by
  simp [splitLinesC]

/-- Unfolding step: a non-newline character joins the following line. -/
theorem splitLinesC_cons_of_cons (c : Char) (cs : List Char) (hc : c ≠ '\n')
    (g : List Char) (gs : List (List Char)) (h : splitLinesC cs = g :: gs) :
    splitLinesC (c :: cs) = (c :: g) :: gs := by
  simp [splitLinesC, hc, h]

/-- Unfolding step: a non-newline character before empty text is a line. -/
theorem splitLinesC_cons_of_nil (c : Char) (cs : List Char) (hc : c ≠ '\n')
    (h : splitLinesC cs = []) : splitLinesC (c :: cs) = [[c]] := by
  simp [splitLinesC, hc, h]

/-- A newline-free prefix followed by a newline splits off as one line. -/
theorem splitLinesC_append_newline (s rest : List Char) (h : '\n' ∉ s) :
    splitLinesC (s ++ '\n' :: rest) = (s ++ ['\n']) :: splitLinesC rest := by
  induction s with
  | nil => simp [splitLinesC]
  | cons c s ih =>
    have hc : c ≠ '\n' := by
      intro hE
      exact h (hE ▸ List.mem_cons_self c s)
    have hs : '\n' ∉ s := fun hm => h (List.mem_cons_of_mem c hm)
    rw [List.cons_append, splitLinesC_cons_of_cons c _ hc _ _ (ih hs),
      List.cons_append]

/-- A non-empty newline-free text is a single line. -/
theorem splitLinesC_no_newline (s : List Char) (h1 : '\n' ∉ s) (h2 : s ≠ []) :
    splitLinesC s = [s] := by
  induction s with
  | nil => exact absurd rfl h2
  | cons c s ih =>
    have hc : c ≠ '\n' := by
      intro hE
      exact h1 (hE ▸ List.mem_cons_self c s)
    have hs : '\n' ∉ s := fun hm => h1 (List.mem_cons_of_mem c hm)
    by_cases hE : s = []
    · subst hE
      simp [splitLinesC, hc]
    · simp [splitLinesC, hc, ih hs hE]

/-- Splitting distributes over appending to a newline-terminated text. -/
theorem splitLinesC_append (a b : List Char) (h : nlTermC a) :
    splitLinesC (a ++ b) = splitLinesC a ++ splitLinesC b := by
  induction a with
  | nil => simp [splitLinesC]
  | cons c a ih =>
    have hlast : (c :: a).getLast? = some '\n' := by
      rcases h with h | h
      · exact absurd h (List.cons_ne_nil c a)
      · exact h
    cases a with
    | nil =>
      simp only [List.getLast?_singleton, Option.some.injEq] at hlast
      subst hlast
      simp [splitLinesC]
    | cons d a2 =>
      have hlast2 : (d :: a2).getLast? = some '\n' := by
        rwa [List.getLast?_cons_cons] at hlast
      have ih2 := ih (Or.inr hlast2)
      by_cases hc : c = '\n'
      · subst hc
        rw [List.cons_append, splitLinesC_cons_nl, splitLinesC_cons_nl, ih2,
          List.cons_append]
      · have hne := splitLinesC_ne_nil (d :: a2) (List.cons_ne_nil d a2)
        rcases hsp : splitLinesC (d :: a2) with _ | ⟨g, gs⟩
        · exact absurd hsp hne
        · have hmid : splitLinesC ((d :: a2) ++ b) = g :: (gs ++ splitLinesC b) := by
            rw [ih2, hsp]
            rfl
          rw [List.cons_append, splitLinesC_cons_of_cons c _ hc _ _ hmid,
            splitLinesC_cons_of_cons c _ hc _ _ hsp]
          rfl

/-- Taking `getLast?` ignores a front element when the tail is non-empty. -/
theorem getLast?_cons_of_ne {α : Type} (c : α) (l : List α) (h : l ≠ []) :
    (c :: l).getLast? = l.getLast? := by
  cases l with
  | nil => exact absurd rfl h
  | cons d l2 => exact List.getLast?_cons_cons

/-- Every `readlines` result has the `okLines` shape: lines are
non-empty, contain a newline only as their final character, and all but
the last end with one. -/
theorem okLines_splitLinesC (cs : List Char) : okLines (splitLinesC cs) := by
  induction cs with
  | nil => exact ⟨by simp [splitLinesC], by simp [splitLinesC]⟩
  | cons c cs ih =>
    by_cases hc : c = '\n'
    · subst hc
      rw [splitLinesC_cons_nl]
      refine ⟨?_, ?_⟩
      · intro l hl
        rcases List.mem_cons.mp hl with hl | hl
        · subst hl
          exact ⟨List.cons_ne_nil _ _, by simp⟩
        · exact ih.1 l hl
      · intro l hl
        rcases hsp : splitLinesC cs with _ | ⟨g, gs⟩
        · rw [hsp] at hl
          simp at hl
        · rw [hsp, List.dropLast_cons_of_ne_nil (List.cons_ne_nil g gs)] at hl
          rcases List.mem_cons.mp hl with hl | hl
          · subst hl
            rfl
          · exact ih.2 l (by rwa [hsp])
    · rcases hsp : splitLinesC cs with _ | ⟨g, gs⟩
      · rw [splitLinesC_cons_of_nil c cs hc hsp]
        refine ⟨?_, by simp⟩
        intro l hl
        rcases List.mem_cons.mp hl with hl | hl
        · subst hl
          exact ⟨List.cons_ne_nil _ _, by simp⟩
        · simp at hl
      · rw [splitLinesC_cons_of_cons c cs hc g gs hsp]
        have hg : goodLine g := ih.1 g (by rw [hsp]; exact List.mem_cons_self g gs)
        refine ⟨?_, ?_⟩
        · intro l hl
          rcases List.mem_cons.mp hl with hl | hl
          · subst hl
            refine ⟨List.cons_ne_nil _ _, ?_⟩
            rw [List.dropLast_cons_of_ne_nil hg.1]
            intro hmem
            rcases List.mem_cons.mp hmem with hE | hE
            · exact hc hE.symm
            · exact hg.2 hE
          · exact ih.1 l (by rw [hsp]; exact List.mem_cons_of_mem g hl)
        · intro l hl
          rcases gs with _ | ⟨k, ks⟩
          · simp at hl
          · rw [List.dropLast_cons_of_ne_nil (List.cons_ne_nil k ks)] at hl
            rcases List.mem_cons.mp hl with hl | hl
            · subst hl
              have hgl : g.getLast? = some '\n' := by
                refine ih.2 g ?_
                rw [hsp, List.dropLast_cons_of_ne_nil (List.cons_ne_nil k ks)]
                exact List.mem_cons_self g _
              rw [getLast?_cons_of_ne c g hg.1]
              exact hgl
            · refine ih.2 l ?_
              rw [hsp, List.dropLast_cons_of_ne_nil (List.cons_ne_nil k ks)]
              exact List.mem_cons_of_mem g hl

/-- Joining lines of the `okLines` shape and re-splitting recovers them:
the `readlines` / `writelines` round trip at the character level. -/
theorem splitLinesC_join (ls : List (List Char)) (h : okLines ls) :
    splitLinesC ls.flatten = ls := by
  induction ls with
  | nil => simp [splitLinesC]
  | cons l rest ih =>
    have hl : goodLine l := h.1 l (List.mem_cons_self l rest)
    rcases rest with _ | ⟨r, rs⟩
    · have hrep : l.dropLast ++ [l.getLast hl.1] = l := List.dropLast_append_getLast hl.1
      by_cases hlast : l.getLast hl.1 = '\n'
      · rw [List.flatten_cons, List.flatten_nil, List.append_nil]
        calc splitLinesC l
            = splitLinesC (l.dropLast ++ '\n' :: []) := by rw [← hlast, hrep]
          _ = (l.dropLast ++ ['\n']) :: splitLinesC [] := splitLinesC_append_newline _ _ hl.2
          _ = [l] := by rw [← hlast, hrep]; rfl
      · have hnl : '\n' ∉ l := by
          intro hmem
          rw [← hrep] at hmem
          rcases List.mem_append.mp hmem with hE | hE
          · exact hl.2 hE
          · simp at hE
            exact hlast hE.symm
        rw [List.flatten_cons, List.flatten_nil, List.append_nil]
        exact splitLinesC_no_newline l hnl hl.1
    · have hlast : l.getLast? = some '\n' := by
        refine h.2 l ?_
        rw [List.dropLast_cons_of_ne_nil (List.cons_ne_nil r rs)]
        exact List.mem_cons_self l _
      have hlg : l.getLast hl.1 = '\n' := by
        rw [List.getLast?_eq_getLast l hl.1] at hlast
        exact Option.some.inj hlast
      have hrep : l.dropLast ++ ['\n'] = l := by
        rw [← hlg]
        exact List.dropLast_append_getLast hl.1
      have hrest : okLines (r :: rs) := by
        refine ⟨fun x hx => h.1 x (List.mem_cons_of_mem l hx), fun x hx => h.2 x ?_⟩
        rw [List.dropLast_cons_of_ne_nil (List.cons_ne_nil r rs)]
        exact List.mem_cons_of_mem l hx
      conv_lhs => rw [List.flatten_cons, ← hrep, List.append_assoc]
      calc splitLinesC (l.dropLast ++ (['\n'] ++ (r :: rs).flatten))
          = splitLinesC (l.dropLast ++ '\n' :: (r :: rs).flatten) := rfl
        _ = (l.dropLast ++ ['\n']) :: splitLinesC (r :: rs).flatten :=
            splitLinesC_append_newline _ _ hl.2
        _ = l :: (r :: rs) := by rw [hrep, ih hrest]

/-- Removing one line from an `okLines` list keeps the shape: only the
last line may lack a trailing newline, and that stays true. -/
theorem okLines_eraseIdx (ls : List (List Char)) (i : Nat) (h : okLines ls) :
    okLines (ls.eraseIdx i) := by
  induction ls generalizing i with
  | nil => simpa using h
  | cons x xs ih =>
    have hxs : okLines xs := by
      refine ⟨fun l hl => h.1 l (List.mem_cons_of_mem x hl), fun l hl => h.2 l ?_⟩
      rcases xs with _ | ⟨y, ys⟩
      · simp at hl
      · rw [List.dropLast_cons_of_ne_nil (List.cons_ne_nil y ys)]
        exact List.mem_cons_of_mem x hl
    cases i with
    | zero => simpa [List.eraseIdx] using hxs
    | succ n =>
      have hE : (x :: xs).eraseIdx (n + 1) = x :: xs.eraseIdx n := rfl
      rw [hE]
      have hih := ih n hxs
      refine ⟨?_, ?_⟩
      · intro l hl
        rcases List.mem_cons.mp hl with hl | hl
        · subst hl
          exact h.1 l (List.mem_cons_self l xs)
        · exact hih.1 l hl
      · intro l hl
        rcases hXE : xs.eraseIdx n with _ | ⟨e, es⟩
        · rw [hXE] at hl
          simp at hl
        · rw [hXE, List.dropLast_cons_of_ne_nil (List.cons_ne_nil e es)] at hl
          rcases List.mem_cons.mp hl with hl | hl
          · subst hl
            have hxsne : xs ≠ [] := by
              intro hE2
              rw [hE2] at hXE
              simp [List.eraseIdx] at hXE
            refine h.2 l ?_
            rcases xs with _ | ⟨y, ys⟩
            · exact absurd rfl hxsne
            · rw [List.dropLast_cons_of_ne_nil (List.cons_ne_nil y ys)]
              exact List.mem_cons_self l _
          · refine hih.2 l ?_
            rw [hXE]
            exact hl

/-- Erasing via `eraseIdx` commutes with `map`. -/
theorem list_eraseIdx_map {α β : Type} (f : α → β) (l : List α) (i : Nat) :
    (l.map f).eraseIdx i = (l.eraseIdx i).map f := by
  induction l generalizing i with
  | nil => simp
  | cons x xs ih =>
    cases i with
    | zero => simp [List.eraseIdx]
    | succ n => simp [List.eraseIdx, ih]

/-- The characters of a joined string list are the flattened characters. -/
theorem string_join_data (ls : List String) :
    (String.join ls).data = (ls.map String.data).flatten := by
  suffices h : ∀ acc : String,
      (ls.foldl (fun r s => r ++ s) acc).data =
        acc.data ++ (ls.map String.data).flatten by
    rw [show String.join ls = ls.foldl (fun r s => r ++ s) "" from rfl, h ""]
    rfl
  induction ls with
  | nil =>
    intro acc
    simp
  | cons s rest ih =>
    intro acc
    simp [ih, String.data_append]

/-- Dropping a trailing whitespace character does not change `strip`. -/
theorem pyStripC_append_ws (s : List Char) (c : Char) (hc : pySpace c = true) :
    pyStripC (s ++ [c]) = pyStripC s := by
  unfold pyStripC
  rw [List.dropWhile_append]
  by_cases h : (s.dropWhile pySpace).isEmpty
  · simp only [h, if_true]
    rw [List.isEmpty_iff] at h
    rw [h]
    simp [List.dropWhile, hc]
  · rw [if_neg h, List.reverse_append]
    simp [List.dropWhile, hc]

/-- Applying `strip` to a line with its newline equals `strip` of the line. -/
theorem pyStripStr_append_nl (s : String) : pyStripStr (s ++ "\n") = pyStripStr s := by
  unfold pyStripStr
  rw [String.data_append]
  congr 1
  exact pyStripC_append_ws s.data '\n' (by decide)

/-- Running `readlines` after `writelines` of the store minus one line gives back
exactly the remaining raw lines: the store rewrite done by delete. -/
theorem readLines_writelines_eraseIdx (content : String) (i : Nat) :
    readLines (String.join ((readLines content).eraseIdx i)) =
      (readLines content).eraseIdx i := by
  unfold readLines
  rw [list_eraseIdx_map (fun l => String.mk l) (splitLinesC content.data) i]
  have hdata :
      (String.join (((splitLinesC content.data).eraseIdx i).map
        (fun l => String.mk l))).data =
      ((splitLinesC content.data).eraseIdx i).flatten := by
    rw [string_join_data, List.map_map]
    congr 1
    have hid : (String.data ∘ fun l : List Char => String.mk l) = id := by
      funext l
      rfl
    rw [hid, List.map_id]
  rw [hdata,
    splitLinesC_join _ (okLines_eraseIdx _ i (okLines_splitLinesC content.data))]

/-- Appending one newline-free line plus newline to a newline-terminated
(or empty) store appends exactly one raw line to `readlines`. -/
theorem readLines_append_line (content s : String)
    (hterm : nlTerminated content) (hnl : '\n' ∉ s.data) :
    readLines (content ++ (s ++ "\n")) = readLines content ++ [s ++ "\n"] := by
  unfold readLines
  rw [String.data_append, String.data_append]
  have hln : ("\n" : String).data = ['\n'] := rfl
  rw [hln, splitLinesC_append _ _ hterm, splitLinesC_append_newline s.data [] hnl]
  have hmk : String.mk (s.data ++ ['\n']) = s ++ "\n" := by
    apply String.ext
    rw [String.data_append, hln]
  have hnilE : splitLinesC ([] : List Char) = [] := rfl
  rw [hnilE, List.map_append]
  congr 1

/-! ## More per-line loop lemmas -/

/-- A record scheduled strictly after the current minute is classified
`keep`: its time string cannot equal the zero-padded current time, since
that string parses back to the current minutes-of-day. -/
theorem classify_keep_of_future (h m : Nat) (hh : h < 24) (hm : m < 60)
    (raw p t n : String) (sm : Int)
    (hp : parseSched (pyStripStr raw) = some (p, t, sm, n))
    (hfut : (h : Int) * 60 + m < sm) :
    classify (timeStr h m) ((h : Int) * 60 + m) raw =
      LineAction.keep (pyStripStr raw) := by
  have hb : pyStripStr raw ≠ "" := by
    intro hE
    rw [hE, parseSched_empty] at hp
    exact Option.noConfusion hp
  have ht : t ≠ timeStr h m := by
    intro hE
    have h1 := parseSched_time _ _ _ _ _ hp
    rw [hE, parseTimeMin_timeStr h hh m hm] at h1
    have h2 : (h : Int) * 60 + m = sm := Option.some.inj h1
    omega
  unfold classify
  simp [hb, hp, ht]

/-- A line classified `skip` is exactly a line that strips to empty. -/
theorem classify_skip_strip (ns : String) (nm : Int) (raw : String)
    (h : classify ns nm raw = LineAction.skip) : pyStripStr raw = "" := by
  by_cases hE : pyStripStr raw = ""
  · exact hE
  · exfalso
    unfold classify at h
    simp [hE] at h
    rcases hps : parseSched (pyStripStr raw) with _ | ⟨p, t, sm, n⟩ <;>
      rw [hps] at h <;> simp at h
    by_cases ht : t = ns <;> simp [ht] at h

/-- When every line is classified `keep`, the loop retains the stripped
lines, in order, calling no backup and logging nothing. -/
theorem tickLines_all_keep (ok : String → String → Bool) (ns : String)
    (nm : Int) (ls : List String)
    (h : ∀ raw ∈ ls, classify ns nm raw = LineAction.keep (pyStripStr raw)) :
    tickLines ok ns nm ls = ⟨ls.map pyStripStr, [], []⟩ := by
  induction ls with
  | nil => simp [tickLines]
  | cons raw rest ih =>
    have h1 := h raw (List.mem_cons_self raw rest)
    have h2 := ih (fun x hx => h x (List.mem_cons_of_mem raw hx))
    simp [tickLines, h1, h2]

/-- When every line is classified `skip` or `keep`, the loop retains
exactly the stripped non-blank lines, calling no backup and logging
nothing. -/
theorem tickLines_skip_keep (ok : String → String → Bool) (ns : String)
    (nm : Int) (ls : List String)
    (h : ∀ raw ∈ ls, classify ns nm raw = LineAction.skip ∨
      classify ns nm raw = LineAction.keep (pyStripStr raw)) :
    tickLines ok ns nm ls =
      ⟨ls.filterMap (fun raw =>
          if pyStripStr raw = "" then none else some (pyStripStr raw)),
        [], []⟩ := by
  induction ls with
  | nil => simp [tickLines]
  | cons raw rest ih =>
    have hrest := ih (fun x hx => h x (List.mem_cons_of_mem raw hx))
    rcases h raw (List.mem_cons_self raw rest) with hr | hr
    · have hb : pyStripStr raw = "" := classify_skip_strip ns nm raw hr
      simp [tickLines, hr, hrest, hb]
    · have hb : pyStripStr raw ≠ "" := by
        intro hE
        unfold classify at hr
        simp [hE] at hr
      simp [tickLines, hr, hrest, hb]

/-- Dropping at least one element through `filterMap` shortens the list. -/
theorem length_filterMap_lt_of_none {α β : Type} (f : α → Option β)
    (l : List α) (a : α) (ha : a ∈ l) (hf : f a = none) :
    (l.filterMap f).length < l.length := by
  induction l with
  | nil => simp at ha
  | cons x xs ih =>
    rcases List.mem_cons.mp ha with hE | hE
    · subst hE
      rw [List.filterMap_cons_none hf]
      have hle := List.length_filterMap_le f xs
      simp only [List.length_cons]
      omega
    · cases hfx : f x with
      | none =>
        rw [List.filterMap_cons_none hfx]
        have := ih hE
        simp only [List.length_cons]
        omega
      | some b =>
        rw [List.filterMap_cons_some hfx]
        simp only [List.length_cons]
        have := ih hE
        omega

/-! ## Claim C3 -/

/-- C3 as stated is false on the code: `"a;09:00;b "` (trailing space in
the name field) passes create's validation — three non-empty fields and an
in-range time — and is appended, but `list` prints the stripped line
`"a;09:00;b"`, so the appended line does not round-trip byte-for-byte. -/
theorem create_roundtrip_counterexample :
    validateSchedule "a;09:00;b " = true ∧
    (create_schedule "a;09:00;b " ⟨some "", []⟩).store = some "a;09:00;b \n" ∧
    listShown "a;09:00;b \n" = ["a;09:00;b"] ∧
    ("a;09:00;b" : String) ≠ "a;09:00;b " := by decide

/-- C3 amended: for every valid `path;HH:MM;name` input that contains no
newline and no leading or trailing whitespace, on a store that is empty or
newline-terminated, create appends exactly one line — the store's line
count grows by exactly 1 — and the appended line round-trips
byte-for-byte through list at the new last index. -/
theorem valid_create_appends_and_roundtrips (st : ManagerState)
    (content : String) (hst : st.store = some content)
    (hterm : nlTerminated content) (s : String)
    (hv : validateSchedule s = true) (hnl : '\n' ∉ s.data)
    (hstrip : pyStripStr s = s) :
    (create_schedule s st).store = some (content ++ (s ++ "\n")) ∧
    readLines (content ++ (s ++ "\n")) = readLines content ++ [s ++ "\n"] ∧
    (readLines (content ++ (s ++ "\n"))).length =
      (readLines content).length + 1 ∧
    listShown (content ++ (s ++ "\n")) = listShown content ++ [s] := by
  refine ⟨?_, ?_, ?_, ?_⟩
  · simp [create_schedule, hv, hst]
  · exact readLines_append_line content s hterm hnl
  · rw [readLines_append_line content s hterm hnl]
    simp
  · unfold listShown
    rw [readLines_append_line content s hterm hnl, List.map_append]
    simp [pyStripStr_append_nl, hstrip]

/-- C3 amended, witness: appending `"/data;14:30;daily"` to a one-line
store. -/
theorem valid_create_appends_and_roundtrips_witness :
    (create_schedule "/data;14:30;daily" ⟨some "p;08:00;q\n", []⟩).store =
      some "p;08:00;q\n/data;14:30;daily\n" ∧
    readLines "p;08:00;q\n/data;14:30;daily\n" =
      ["p;08:00;q\n", "/data;14:30;daily\n"] ∧
    listShown "p;08:00;q\n/data;14:30;daily\n" =
      ["p;08:00;q", "/data;14:30;daily"] := by
  have h := valid_create_appends_and_roundtrips ⟨some "p;08:00;q\n", []⟩
    "p;08:00;q\n" rfl (Or.inr (by decide)) "/data;14:30;daily" (by decide)
    (by decide) (by decide)
  refine ⟨?_, ?_, ?_⟩
  · exact h.1
  · have h2 := h.2.1
    rw [show readLines "p;08:00;q\n" = ["p;08:00;q\n"] from by decide] at h2
    exact h2
  · have h4 := h.2.2.2
    rw [show listShown "p;08:00;q\n" = ["p;08:00;q"] from by decide] at h4
    exact h4

/-! ## Claim C4 -/

/-- C4: every input failing create's validation (wrong field count, an
empty field, a time that does not split into two int-parseable parts, or
an out-of-range hour/minute) is reported as an error and leaves the store
content untouched. -/
theorem malformed_create_leaves_store_unchanged (st : ManagerState)
    (s : String) (hv : validateSchedule s = false) :
    (create_schedule s st).store = st.store ∧
    (create_schedule s st).log = st.log ++ [MEvent.error] := by
  simp [create_schedule, hv]

/-- C4 witness: an out-of-range hour. -/
theorem malformed_create_leaves_store_unchanged_witness :
    (create_schedule "a;25:00;b" ⟨some "p;08:00;q\n", []⟩).store =
      some "p;08:00;q\n" ∧
    (create_schedule "a;25:00;b" ⟨some "p;08:00;q\n", []⟩).log =
      [MEvent.error] := by
  have h := malformed_create_leaves_store_unchanged ⟨some "p;08:00;q\n", []⟩
    "a;25:00;b" (by decide)
  simpa using h

/-! ## Claim C5 -/

/-- C5: on a store of N lines, delete with an index parsing to i with
0 <= i < N rewrites the store to exactly the original lines minus the
i-th, in original relative order (line count N-1), and reports the
removed content; delete with a non-numeric index, or with an index
outside that range (negative included), reports an error and leaves the
store unchanged. -/
theorem delete_semantics (st : ManagerState) (content : String)
    (hst : st.store = some content) (idxStr : String) :
    (∀ i : Int, pyInt idxStr = some i → 0 ≤ i →
      i < ((readLines content).length : Int) →
      (delete_schedule idxStr st).store =
        some (String.join ((readLines content).eraseIdx i.toNat)) ∧
      readLines (String.join ((readLines content).eraseIdx i.toNat)) =
        (readLines content).eraseIdx i.toNat ∧
      ((readLines content).eraseIdx i.toNat).length + 1 =
        (readLines content).length ∧
      (delete_schedule idxStr st).log = st.log ++
        [MEvent.deleted i (pyStripStr ((readLines content).getD i.toNat ""))]) ∧
    ((∀ i : Int, pyInt idxStr = some i →
        i < 0 ∨ ((readLines content).length : Int) ≤ i) →
      (delete_schedule idxStr st).store = st.store ∧
      (delete_schedule idxStr st).log = st.log ++ [MEvent.error]) := by
  constructor
  · intro i hi h0 hlt
    have hcond : 0 ≤ i ∧ i < ((readLines content).length : Int) := ⟨h0, hlt⟩
    simp only [delete_schedule, hst, hi]
    rw [if_pos hcond]
    refine ⟨rfl, readLines_writelines_eraseIdx content i.toNat, ?_, rfl⟩
    have hnat : i.toNat < (readLines content).length := by omega
    exact List.length_eraseIdx_add_one hnat
  · intro hout
    simp only [delete_schedule, hst]
    cases hi : pyInt idxStr with
    | none => exact ⟨rfl, rfl⟩
    | some i =>
      have hcond : ¬(0 ≤ i ∧ i < ((readLines content).length : Int)) := by
        rcases hout i hi with hlt | hge
        · intro hc
          omega
        · intro hc
          omega
      refine ⟨?_, ?_⟩ <;> simp [hcond]

/-- C5 witness: deleting index 1 from a three-line store, and an
out-of-range index from the same store. -/
theorem delete_semantics_witness :
    (delete_schedule "1" ⟨some "a;01:00;x\nb;02:00;y\nc;03:00;z\n", []⟩).store =
      some "a;01:00;x\nc;03:00;z\n" ∧
    (delete_schedule "1" ⟨some "a;01:00;x\nb;02:00;y\nc;03:00;z\n", []⟩).log =
      [MEvent.deleted 1 "b;02:00;y"] ∧
    (delete_schedule "7" ⟨some "a;01:00;x\nb;02:00;y\nc;03:00;z\n", []⟩).store =
      some "a;01:00;x\nb;02:00;y\nc;03:00;z\n" ∧
    (delete_schedule "7" ⟨some "a;01:00;x\nb;02:00;y\nc;03:00;z\n", []⟩).log =
      [MEvent.error] := by
  have h1 := (delete_semantics ⟨some "a;01:00;x\nb;02:00;y\nc;03:00;z\n", []⟩
    "a;01:00;x\nb;02:00;y\nc;03:00;z\n" rfl "1").1 1 (by decide) (by decide)
    (by decide)
  have h2 := (delete_semantics ⟨some "a;01:00;x\nb;02:00;y\nc;03:00;z\n", []⟩
    "a;01:00;x\nb;02:00;y\nc;03:00;z\n" rfl "7").2 (by decide)
  refine ⟨?_, ?_, ?_, ?_⟩
  · rw [h1.1]
    decide
  · have := h1.2.2.2
    simpa using this
  · exact h2.1
  · simpa using h2.2

/-! ## Claim C6 -/

/-- C6: when every store line parses to a record scheduled strictly after
the current minute, a tick changes nothing: the retained count equals the
raw line count, so no rewrite happens and the store stays byte-identical;
no backup is attempted and nothing is logged. -/
theorem future_only_tick_is_noop (ok : String → String → Bool) (h m : Nat)
    (content : String) (hh : h < 24) (hm : m < 60)
    (hall : ∀ raw ∈ readLines content, ∃ p t sm n,
      parseSched (pyStripStr raw) = some (p, t, sm, n) ∧
        (h : Int) * 60 + m < sm) :
    tick ok h m (some content) = ⟨some content, [], []⟩ := by
  have hcl : ∀ raw ∈ readLines content,
      classify (timeStr h m) ((h : Int) * 60 + m) raw =
        LineAction.keep (pyStripStr raw) := by
    intro raw hr
    obtain ⟨p, t, sm, n, hp, hfut⟩ := hall raw hr
    exact classify_keep_of_future h m hh hm raw p t n sm hp hfut
  have hT := tickLines_all_keep ok (timeStr h m) ((h : Int) * 60 + m)
    (readLines content) hcl
  simp only [tick, hT]
  rw [if_neg (fun hne => hne (List.length_map (readLines content) pyStripStr))]

/-- C6 witness: the spec's retention scenario, store
`["/data;23:59;late"]` at simulated time 08:00. -/
theorem future_only_tick_is_noop_witness :
    tick (fun _ _ => true) 8 0 (some "/data;23:59;late\n") =
      ⟨some "/data;23:59;late\n", [], []⟩ := by
  apply future_only_tick_is_noop (fun _ _ => true) 8 0 "/data;23:59;late\n"
    (by decide) (by decide)
  intro raw hraw
  have hE : raw = "/data;23:59;late\n" := by
    rw [show readLines "/data;23:59;late\n" = ["/data;23:59;late\n"] from by decide]
      at hraw
    simpa using hraw
  subst hE
  exact ⟨"/data", "23:59", 1439, "late", by decide, by decide⟩

/-! ## Claim C7 -/

/-- C7: a non-blank store line that fails to parse produces a parse-error
log entry at its position and is not retained — since the retained count
then falls short of the raw count, the store is rewritten to exactly the
other lines' retained records, among which the malformed line does not
appear — while the lines before and after it are processed exactly as
they would be on their own. -/
theorem malformed_line_dropped_and_isolated (ok : String → String → Bool)
    (h m : Nat) (content bad : String) (pre post : List String)
    (hr : readLines content = pre ++ bad :: post)
    (hb1 : pyStripStr bad ≠ "")
    (hb2 : parseSched (pyStripStr bad) = none) :
    (tick ok h m (some content)).log =
      (tickLines ok (timeStr h m) ((h : Int) * 60 + m) pre).log ++
        SEvent.parseError (pyStripStr bad) ::
        (tickLines ok (timeStr h m) ((h : Int) * 60 + m) post).log ∧
    (tick ok h m (some content)).arch =
      (tickLines ok (timeStr h m) ((h : Int) * 60 + m) pre).arch ++
        (tickLines ok (timeStr h m) ((h : Int) * 60 + m) post).arch ∧
    (tick ok h m (some content)).store =
      some (linesJoin
        ((tickLines ok (timeStr h m) ((h : Int) * 60 + m) pre).keep ++
         (tickLines ok (timeStr h m) ((h : Int) * 60 + m) post).keep)) ∧
    pyStripStr bad ∉
      (tickLines ok (timeStr h m) ((h : Int) * 60 + m) pre).keep ++
        (tickLines ok (timeStr h m) ((h : Int) * 60 + m) post).keep := by
  have hc : classify (timeStr h m) ((h : Int) * 60 + m) bad =
      LineAction.parseErr (pyStripStr bad) := by
    unfold classify
    simp [hb1, hb2]
  have hmid : tickLines ok (timeStr h m) ((h : Int) * 60 + m) (bad :: post) =
      ⟨(tickLines ok (timeStr h m) ((h : Int) * 60 + m) post).keep,
       (tickLines ok (timeStr h m) ((h : Int) * 60 + m) post).arch,
       SEvent.parseError (pyStripStr bad) ::
         (tickLines ok (timeStr h m) ((h : Int) * 60 + m) post).log⟩ := by
    simp [tickLines, hc]
  have hlen1 := tickLines_keep_length_le ok (timeStr h m) ((h : Int) * 60 + m) pre
  have hlen2 := tickLines_keep_length_le ok (timeStr h m) ((h : Int) * 60 + m) post
  have hnot : pyStripStr bad ∉
      (tickLines ok (timeStr h m) ((h : Int) * 60 + m) pre).keep ++
        (tickLines ok (timeStr h m) ((h : Int) * 60 + m) post).keep := by
    intro hmem
    rcases List.mem_append.mp hmem with hmem | hmem
    · obtain ⟨r, hpr⟩ := tickLines_keep_parses ok (timeStr h m)
        ((h : Int) * 60 + m) pre (pyStripStr bad) hmem
      rw [hb2] at hpr
      exact Option.noConfusion hpr
    · obtain ⟨r, hpr⟩ := tickLines_keep_parses ok (timeStr h m)
        ((h : Int) * 60 + m) post (pyStripStr bad) hmem
      rw [hb2] at hpr
      exact Option.noConfusion hpr
  simp only [tick, hr, tickLines_append, hmid]
  refine ⟨trivial, trivial, ?_, hnot⟩
  have hcond :
      ((tickLines ok (timeStr h m) ((h : Int) * 60 + m) pre).keep ++
        (tickLines ok (timeStr h m) ((h : Int) * 60 + m) post).keep).length ≠
      (pre ++ bad :: post).length := by
    simp only [List.length_append, List.length_cons]
    omega
  rw [if_pos hcond]

/-- C7 witness: store `["/a;09:00;x", "oops", "/b;23:59;y"]` at 08:00 —
the malformed middle line is reported and dropped, the other two records
survive. -/
theorem malformed_line_dropped_and_isolated_witness :
    (tick (fun _ _ => true) 8 0
      (some "/a;09:00;x\noops\n/b;23:59;y\n")).log =
        [SEvent.parseError "oops"] ∧
    (tick (fun _ _ => true) 8 0
      (some "/a;09:00;x\noops\n/b;23:59;y\n")).arch = [] ∧
    (tick (fun _ _ => true) 8 0
      (some "/a;09:00;x\noops\n/b;23:59;y\n")).store =
        some "/a;09:00;x\n/b;23:59;y\n" ∧
    ("oops" : String) ∉ (["/a;09:00;x", "/b;23:59;y"] : List String) := by
  have h := malformed_line_dropped_and_isolated (fun _ _ => true) 8 0
    "/a;09:00;x\noops\n/b;23:59;y\n" "oops\n" ["/a;09:00;x\n"] ["/b;23:59;y\n"]
    (by decide) (by decide) (by decide)
  obtain ⟨h1, h2, h3, h4⟩ := h
  refine ⟨?_, ?_, ?_, by decide⟩
  · rw [h1]
    decide
  · rw [h2]
    decide
  · rw [h3]
    decide

/-! ## Claim C8 -/

/-- C8: when the process-table query output is non-blank (a worker entry
exists), start reports "already running" and launches nothing; when it is
blank, start launches the worker as a detached new-session process
(`Popen` with `start_new_session=True`, recorded as `launched = some
true`) and reports no error. -/
theorem start_respects_process_query (ps : String) :
    (pyStripStr ps ≠ "" →
      start_service ps = ⟨none, true⟩) ∧
    (pyStripStr ps = "" →
      start_service ps = ⟨some true, false⟩) := by
  constructor <;> intro h <;> simp [start_service, h]

/-- C8 witness: a non-empty query output blocks the launch; an empty one
launches. -/
theorem start_respects_process_query_witness :
    start_service "root 4242 1 0 10:00 ? 00:00 python3 backup_service.py" =
      ⟨none, true⟩ ∧
    start_service "" = ⟨some true, false⟩ :=
  ⟨(start_respects_process_query
      "root 4242 1 0 10:00 ? 00:00 python3 backup_service.py").1 (by decide),
   (start_respects_process_query "").2 (by decide)⟩

/-! ## Claim C9 -/

/-- C9: create's time validation only parses the integer hour and minute
and never checks zero-padding, so `"a;9:5;b"` and `"a;09:5;b"` pass it,
and the former is stored verbatim; the worker's exact-match test is
string equality against the zero-padded rendering of now, which a
non-zero-padded time string never equals, so for every valid current
time the record is classified `keep` — the exact-match (archive) branch
can never run for it. -/
theorem unpadded_time_accepted_never_fires :
    validateSchedule "a;9:5;b" = true ∧
    validateSchedule "a;09:5;b" = true ∧
    (create_schedule "a;9:5;b" ⟨some "", []⟩).store = some "a;9:5;b\n" ∧
    (∀ h : Nat, h < 24 → ∀ m : Nat, m < 60 →
      classify (timeStr h m) ((h : Int) * 60 + m) "a;9:5;b" =
        LineAction.keep "a;9:5;b") ∧
    (∀ h : Nat, h < 24 → ∀ m : Nat, m < 60 →
      classify (timeStr h m) ((h : Int) * 60 + m) "a;09:5;b" =
        LineAction.keep "a;09:5;b") := by
  have k1 : ∀ h : Nat, h < 24 → ∀ m : Nat, m < 60 →
      ("9:5" : String) ≠ timeStr h m := by decide
  have k2 : ∀ h : Nat, h < 24 → ∀ m : Nat, m < 60 →
      ("09:5" : String) ≠ timeStr h m := by decide
  have hstr1 : pyStripStr "a;9:5;b" = "a;9:5;b" := by decide
  have hps1 : parseSched "a;9:5;b" = some ("a", "9:5", 545, "b") := by decide
  have hstr2 : pyStripStr "a;09:5;b" = "a;09:5;b" := by decide
  have hps2 : parseSched "a;09:5;b" = some ("a", "09:5", 545, "b") := by decide
  refine ⟨by decide, by decide, by decide, ?_, ?_⟩
  · intro h hh m hm
    simp [classify, hstr1, hps1, k1 h hh m hm,
      show ("a;9:5;b" : String) ≠ "" from by decide]
  · intro h hh m hm
    simp [classify, hstr2, hps2, k2 h hh m hm,
      show ("a;09:5;b" : String) ≠ "" from by decide]

/-- C9 witness: the record never fires even at times sharing its digits,
such as 09:05. -/
theorem unpadded_time_accepted_never_fires_witness :
    classify (timeStr 9 5) ((9 : Int) * 60 + 5) "a;9:5;b" =
      LineAction.keep "a;9:5;b" ∧
    classify (timeStr 9 5) ((9 : Int) * 60 + 5) "a;09:5;b" =
      LineAction.keep "a;09:5;b" :=
  ⟨unpadded_time_accepted_never_fires.2.2.2.1 9 (by decide) 5 (by decide),
   unpadded_time_accepted_never_fires.2.2.2.2 9 (by decide) 5 (by decide)⟩

/-! ## Claim C10 -/

/-- C10: blank (whitespace-only) lines are skipped during evaluation, and
since the store is rewritten whenever the retained count differs from the
raw line count, a store whose non-blank lines are all strictly-future
records is rewritten — each retained record stripped of surrounding
whitespace plus exactly one newline — with the blank lines removed, even
though no record fired or expired and nothing was logged. -/
theorem blank_lines_removed_on_rewrite (ok : String → String → Bool)
    (h m : Nat) (content : String) (hh : h < 24) (hm : m < 60)
    (hall : ∀ raw ∈ readLines content, pyStripStr raw = "" ∨
      ∃ p t sm n, parseSched (pyStripStr raw) = some (p, t, sm, n) ∧
        (h : Int) * 60 + m < sm)
    (hblank : ∃ raw ∈ readLines content, pyStripStr raw = "") :
    (tick ok h m (some content)).store =
      some (linesJoin ((readLines content).filterMap
        (fun raw => if pyStripStr raw = "" then none
          else some (pyStripStr raw)))) ∧
    (tick ok h m (some content)).arch = [] ∧
    (tick ok h m (some content)).log = [] := by
  have hcl : ∀ raw ∈ readLines content,
      classify (timeStr h m) ((h : Int) * 60 + m) raw = LineAction.skip ∨
      classify (timeStr h m) ((h : Int) * 60 + m) raw =
        LineAction.keep (pyStripStr raw) := by
    intro raw hrm
    rcases hall raw hrm with hE | ⟨p, t, sm, n, hp, hfut⟩
    · left
      unfold classify
      simp [hE]
    · right
      exact classify_keep_of_future h m hh hm raw p t n sm hp hfut
  have hT := tickLines_skip_keep ok (timeStr h m) ((h : Int) * 60 + m)
    (readLines content) hcl
  obtain ⟨braw, hbm, hbe⟩ := hblank
  have hlt : ((readLines content).filterMap
      (fun raw => if pyStripStr raw = "" then none
        else some (pyStripStr raw))).length < (readLines content).length :=
    length_filterMap_lt_of_none _ _ braw hbm (by simp [hbe])
  simp only [tick, hT]
  rw [if_pos (by omega)]
  exact ⟨rfl, trivial, trivial⟩

/-- C10 witness: a store with one future record and two blank lines is
rewritten to just the record, with no archive call and no log entry. -/
theorem blank_lines_removed_on_rewrite_witness :
    (tick (fun _ _ => true) 8 0 (some "/data;23:59;late\n\n   \n")).store =
      some "/data;23:59;late\n" ∧
    (tick (fun _ _ => true) 8 0 (some "/data;23:59;late\n\n   \n")).arch = [] ∧
    (tick (fun _ _ => true) 8 0 (some "/data;23:59;late\n\n   \n")).log = [] := by
  have h := blank_lines_removed_on_rewrite (fun _ _ => true) 8 0
    "/data;23:59;late\n\n   \n" (by decide) (by decide)
    (by
      intro raw hraw
      rw [show readLines "/data;23:59;late\n\n   \n" =
        ["/data;23:59;late\n", "\n", "   \n"] from by decide] at hraw
      simp only [List.mem_cons, List.not_mem_nil, or_false] at hraw
      rcases hraw with hE | hE | hE
      · subst hE
        exact Or.inr ⟨"/data", "23:59", 1439, "late", by decide, by decide⟩
      · subst hE
        exact Or.inl (by decide)
      · subst hE
        exact Or.inl (by decide))
    ⟨"\n", by
      rw [show readLines "/data;23:59;late\n\n   \n" =
        ["/data;23:59;late\n", "\n", "   \n"] from by decide]
      decide, by decide⟩
  obtain ⟨h1, h2, h3⟩ := h
  refine ⟨?_, h2, h3⟩
  rw [h1]
  decide
